import Mathlib

/-!
Verification of obsidian-export (core engine and built-in postprocessors).

Shallow embedding of the resolution-and-transformation engine of
`obsidian-export`. The built-in postprocessors are translated directly from
`src/postprocessors.rs`; components of the engine that live outside the
available sources (embed expansion with its recursion stack, frontmatter
strategy handling, context creation on embed entry) are modelled from the
specification, with their doc comments saying so.

Rust's in-place mutation of `Context` and the markdown event stream is
rendered as explicit state passing: a postprocessor takes a context and an
event list and returns the (possibly updated) context, event list and a
`PostprocessorResult`.
-/

/-- Subset of `serde_yaml::Value` actually used by the frontmatter and the
built-in postprocessors: null, booleans, numbers, strings, sequences.
(`serde_yaml` is an external collaborator of the crate; mappings nested
inside values are not needed by any postprocessor under verification.) -/
inductive Value where
  | null : Value
  | bool (b : Bool) : Value
  | num (n : Int) : Value
  | str (s : String) : Value
  | seq (xs : List Value) : Value

mutual

/-- Decidable equality on `Value` (hand-rolled: `Value` nests `List`). -/
def Value.decEq : (a b : Value) → Decidable (a = b)
  | Value.null, Value.null => isTrue rfl
  | Value.bool a, Value.bool b =>
      if h : a = b then isTrue (by rw [h])
      else isFalse (fun hc => h (by cases hc; rfl))
  | Value.num a, Value.num b =>
      if h : a = b then isTrue (by rw [h])
      else isFalse (fun hc => h (by cases hc; rfl))
  | Value.str a, Value.str b =>
      if h : a = b then isTrue (by rw [h])
      else isFalse (fun hc => h (by cases hc; rfl))
  | Value.seq a, Value.seq b =>
      match Value.decEqList a b with
      | isTrue h => isTrue (by rw [h])
      | isFalse h => isFalse (fun hc => h (by cases hc; rfl))
  | Value.null, Value.bool _ => isFalse nofun
  | Value.null, Value.num _ => isFalse nofun
  | Value.null, Value.str _ => isFalse nofun
  | Value.null, Value.seq _ => isFalse nofun
  | Value.bool _, Value.null => isFalse nofun
  | Value.bool _, Value.num _ => isFalse nofun
  | Value.bool _, Value.str _ => isFalse nofun
  | Value.bool _, Value.seq _ => isFalse nofun
  | Value.num _, Value.null => isFalse nofun
  | Value.num _, Value.bool _ => isFalse nofun
  | Value.num _, Value.str _ => isFalse nofun
  | Value.num _, Value.seq _ => isFalse nofun
  | Value.str _, Value.null => isFalse nofun
  | Value.str _, Value.bool _ => isFalse nofun
  | Value.str _, Value.num _ => isFalse nofun
  | Value.str _, Value.seq _ => isFalse nofun
  | Value.seq _, Value.null => isFalse nofun
  | Value.seq _, Value.bool _ => isFalse nofun
  | Value.seq _, Value.num _ => isFalse nofun
  | Value.seq _, Value.str _ => isFalse nofun

/-- Decidable equality on lists of `Value`. -/
def Value.decEqList : (a b : List Value) → Decidable (a = b)
  | [], [] => isTrue rfl
  | [], _ :: _ => isFalse nofun
  | _ :: _, [] => isFalse nofun
  | a :: as, b :: bs =>
      match Value.decEq a b, Value.decEqList as bs with
      | isTrue h1, isTrue h2 => isTrue (by rw [h1, h2])
      | isFalse h1, _ => isFalse (fun hc => h1 (by cases hc; rfl))
      | isTrue _, isFalse h2 => isFalse (fun hc => h2 (by cases hc; rfl))

end

instance : DecidableEq Value := Value.decEq

/-- Holds (as `true`) exactly on the `Value.seq` constructor, mirroring the
`Value::Sequence(_)` match arm in `filter_by_tags`. -/
def Value.isSequence : Value → Bool
  | Value.seq _ => true
  | _ => false

/-- Frontmatter: an ordered key → value mapping (`serde_yaml::Mapping`),
modelled as an association list preserving insertion order. -/
def Frontmatter := List (Value × Value)

instance : DecidableEq Frontmatter := by
  unfold Frontmatter; infer_instance

/-- Lookup of `Mapping::get`: the value associated with the first matching key. -/
def fmGet (fm : Frontmatter) (k : Value) : Option Value :=
  (List.find? (fun p => p.1 == k) fm).map (fun p => p.2)

/-- Per-note mutable context threaded through the postprocessor chain
(current file, intended destination, the note's own frontmatter). -/
structure Context where
  file : String
  destination : String
  frontmatter : Frontmatter
  deriving DecidableEq

/-- Subset of `pulldown_cmark::Event` relevant to the built-in
postprocessors: soft/hard breaks, text runs, and an opaque stand-in for
every other structural event kind. -/
inductive Event where
  | SoftBreak : Event
  | HardBreak : Event
  | Text (s : String) : Event
  | Other (k : Nat) : Event
  deriving DecidableEq

/-- Tri-state result governing postprocessor chain continuation. -/
inductive PostprocessorResult where
  | Continue : PostprocessorResult
  | StopHere : PostprocessorResult
  | StopAndSkipNote : PostprocessorResult
  deriving DecidableEq

/-- The `for event in events.iter_mut()` loop of `softbreaks_to_hardbreaks`:
each element equal to `SoftBreak` is overwritten with `HardBreak`. -/
def softbreaksLoop : List Event → List Event
  | [] => []
  | e :: rest =>
      (if e = Event.SoftBreak then Event.HardBreak else e) :: softbreaksLoop rest

/-- Function `softbreaks_to_hardbreaks` from `src/postprocessors.rs`: converts all
soft line breaks to hard line breaks, leaves the context alone and returns
`Continue`. -/
def softbreaks_to_hardbreaks (context : Context) (events : List Event) :
    Context × List Event × PostprocessorResult :=
  (context, softbreaksLoop events, PostprocessorResult.Continue)

/-- Function `only_published_filter` from `src/postprocessors.rs`: rejects any note
without `publish: true` in its frontmatter. -/
def only_published_filter (context : Context) (events : List Event) :
    Context × List Event × PostprocessorResult :=
  match fmGet context.frontmatter (Value.str "publish") with
  | some (Value.bool true) => (context, events, PostprocessorResult.Continue)
  | _ => (context, events, PostprocessorResult.StopAndSkipNote)

/-- Function `filter_by_tags_` from `src/postprocessors.rs` (the helper taking the
note's tags directly). -/
def filter_by_tags_ (tags : List Value) (skip_tags : List String)
    (only_tags : List String) : PostprocessorResult :=
  let skip := skip_tags.any (fun tag => tags.contains (Value.str tag))
  let incl := only_tags.isEmpty ||
    only_tags.any (fun tag => tags.contains (Value.str tag))
  if skip || !incl then
    PostprocessorResult.StopAndSkipNote
  else
    PostprocessorResult.Continue

/-- The closure produced by `filter_by_tags(skip_tags, only_tags)`:
dispatches on the `tags` frontmatter entry. -/
def filter_by_tags (skip_tags : List String) (only_tags : List String)
    (context : Context) (events : List Event) :
    Context × List Event × PostprocessorResult :=
  match fmGet context.frontmatter (Value.str "tags") with
  | none => (context, events, filter_by_tags_ [] skip_tags only_tags)
  | some (Value.seq tags) => (context, events, filter_by_tags_ tags skip_tags only_tags)
  | some _ => (context, events, PostprocessorResult.Continue)

/-- Modelled from the spec: errors surfaced to the caller (§6). Per-file
errors are wrapped in `FileExportError` naming the offending file. -/
inductive ExportError where
  | PathDoesNotExist : ExportError
  | ReadError : ExportError
  | WriteError : ExportError
  | RecursionLimitExceeded : ExportError
  | FrontmatterDecodeError : ExportError
  | FileExportError (path : String) (source : ExportError) : ExportError
  deriving DecidableEq

/-- Modelled from the spec: the per-note data the Embed Expander and
Context creation need — the note's own frontmatter mapping and the ordered
embed targets appearing in its body (§3 Note). -/
structure NoteData where
  frontmatter : Frontmatter
  embeds : List String
  deriving DecidableEq

/-- Modelled from the spec: the Vault Index restricted to what embed
expansion consults — a mapping from vault-relative note path to its data
(§3 VaultIndex). -/
def Vault := List (String × NoteData)

/-- Embed targets of a note (empty when the path is not in the vault). -/
def embedsOf (vault : Vault) (path : String) : List String :=
  match List.find? (fun p => p.1 == path) vault with
  | some p => p.2.embeds
  | none => []

/-- A note's own frontmatter (empty when the path is not in the vault). -/
def frontmatterOf (vault : Vault) (path : String) : Frontmatter :=
  match List.find? (fun p => p.1 == path) vault with
  | some p => p.2.frontmatter
  | none => []

/-- Modelled from the spec: the Embed Expander (§4.4, missing from the
available sources). `stack` is the RecursionStack of vault-relative paths
currently being expanded; `targets` are the embed targets still to expand
at the current level. For each target: if it is already on the stack, or
the stack has reached the configured ceiling `limit`, fail with
`RecursionLimitExceeded` (terminal for the whole file export); otherwise
push it and expand its own embeds, popping afterwards. The spec phrases
the ceiling check as `stack depth already equals the configured ceiling`;
since the stack starts below the ceiling and grows one path at a time,
testing `limit ≤ stack.length` is equivalent on every reachable stack and
total on all stacks. Besides the spec's success-or-error outcome the model
returns the maximum stack depth attained, to state the depth bound. -/
def expandEmbeds (vault : Vault) (limit : Nat) (stack : List String)
    (targets : List String) : Except ExportError Unit × Nat :=
  match targets with
  | [] => (Except.ok (), stack.length)
  | t :: rest =>
      if t ∈ stack then
        (Except.error ExportError.RecursionLimitExceeded, stack.length)
      else if _h : limit ≤ stack.length then
        (Except.error ExportError.RecursionLimitExceeded, stack.length)
      else
        match expandEmbeds vault limit (t :: stack) (embedsOf vault t) with
        | (Except.error e, d) => (Except.error e, d)
        | (Except.ok _, d) =>
            let r := expandEmbeds vault limit stack rest
            (r.1, max d r.2)
termination_by (limit + 1 - stack.length, targets.length)
decreasing_by
  · apply Prod.Lex.left
    simp only [List.length_cons]
    omega
  · apply Prod.Lex.right
    simp

/-- Modelled from the spec: exporting one root note (§2 control flow,
§4.4). The root note's path is on the RecursionStack while it is being
expanded; an error during embed expansion is wrapped in a
`FileExportError` naming the root note (§4.6, §6). -/
def exportFile (vault : Vault) (limit : Nat) (path : String) :
    Except ExportError Unit × Nat :=
  match expandEmbeds vault limit [path] (embedsOf vault path) with
  | (Except.error e, d) => (Except.error (ExportError.FileExportError path e), d)
  | (Except.ok _, d) => (Except.ok (), d)

/-- Frontmatter strategy (§6): `Always` emits an empty block if absent,
`Never` strips any block, `Auto` preserves exactly as present/absent. -/
inductive FrontmatterStrategy where
  | Always : FrontmatterStrategy
  | Never : FrontmatterStrategy
  | Auto : FrontmatterStrategy
  deriving DecidableEq

/-- Modelled from the spec: a delimited frontmatter block as it appears in
the serialized output — the raw block text between `---` delimiter lines,
followed by a blank line before the body (§4.2, and the concrete layout
pinned by `test_frontmatter_always` in `tests/export_test.rs`). -/
def delimitFrontmatter (fmText : String) : String :=
  "---\n" ++ fmText ++ "---\n\n"

/-- Modelled from the spec: how the Writer assembles a note's output text
from the split frontmatter and the serialized body, under the configured
frontmatter strategy (§4.2, §6; the Writer itself is missing from the
available sources). `fmText` is the raw text of the leading metadata block
when the source note has one. -/
def applyFrontmatterStrategy (strategy : FrontmatterStrategy)
    (fmText : Option String) (body : String) : String :=
  match strategy with
  | FrontmatterStrategy.Never => body
  | FrontmatterStrategy.Always =>
      delimitFrontmatter (fmText.getD "") ++ body
  | FrontmatterStrategy.Auto =>
      match fmText with
      | none => body
      | some t => delimitFrontmatter t ++ body

/-- Modelled from the spec: a heap of live `Context` objects, to speak
about object identity across the embed boundary (§3 Context, §9: each
context owns its frontmatter mapping; parent and child are never the same
object). Contexts are identified by the `Nat` at which they are stored. -/
structure ContextStore where
  contexts : List (Nat × Context)
  nextId : Nat

/-- A store is well formed when every live id is below `nextId`. -/
def storeWF (s : ContextStore) : Prop :=
  ∀ p ∈ s.contexts, p.1 < s.nextId

/-- The context stored at id `i`, if any. -/
def storeGet (s : ContextStore) (i : Nat) : Option Context :=
  (List.find? (fun p => p.1 == i) s.contexts).map (fun p => p.2)

/-- Overwrite the context stored at id `i` (an in-place mutation of that
object, such as a postprocessor writing to its frontmatter). -/
def storeSet (s : ContextStore) (i : Nat) (c : Context) : ContextStore :=
  { s with contexts := s.contexts.map (fun p => if p.1 == i then (i, c) else p) }

/-- Allocate a fresh context object, returning its id. -/
def allocContext (s : ContextStore) (c : Context) : Nat × ContextStore :=
  (s.nextId, { contexts := (s.nextId, c) :: s.contexts, nextId := s.nextId + 1 })

/-- Modelled from the spec: embed entry (§4.4) — construct a fresh Note +
Context for the embedded note, carrying the embedded note's own
frontmatter, not the parent's. `target` is the resolved vault-relative
path of the embedded note and `dest` its intended destination. -/
def enterEmbed (vault : Vault) (s : ContextStore) (target : String)
    (dest : String) : Nat × ContextStore :=
  allocContext s
    { file := target, destination := dest, frontmatter := frontmatterOf vault target }

/-! ## Lemmas about the built-in postprocessors -/

theorem softbreaksLoop_eq_map (events : List Event) :
    softbreaksLoop events =
      events.map (fun e => if e = Event.SoftBreak then Event.HardBreak else e) := by
  induction events with
  | nil => rfl
  | cons e rest ih => simp [softbreaksLoop, ih]

theorem softbreaksLoop_no_softbreak (events : List Event) :
    Event.SoftBreak ∉ softbreaksLoop events := by
  induction events with
  | nil => simp [softbreaksLoop]
  | cons e rest ih =>
      simp only [softbreaksLoop, List.mem_cons]
      rintro (h | h)
      · by_cases he : e = Event.SoftBreak
        · simp [he] at h
        · simp [he] at h
          exact he h.symm
      · exact ih h

theorem softbreaksLoop_idem (events : List Event) :
    softbreaksLoop (softbreaksLoop events) = softbreaksLoop events := by
  induction events with
  | nil => rfl
  | cons e rest ih =>
      by_cases he : e = Event.SoftBreak <;> simp [softbreaksLoop, he, ih]

/-- C7: `softbreaks_to_hardbreaks` returns `Continue`, leaves the context
unchanged, and rewrites the event stream by replacing every `SoftBreak`
with `HardBreak` and keeping every other event (hence also the number and
order of events) unchanged. -/
theorem softbreaks_to_hardbreaks_spec (context : Context) (events : List Event) :
    softbreaks_to_hardbreaks context events =
      (context,
       events.map (fun e => if e = Event.SoftBreak then Event.HardBreak else e),
       PostprocessorResult.Continue) := by
  unfold softbreaks_to_hardbreaks
  rw [softbreaksLoop_eq_map]

/-- C10: `softbreaks_to_hardbreaks` is idempotent — feeding its output
context and event stream back into it changes nothing — and its output
stream contains no `SoftBreak` events. -/
theorem softbreaks_to_hardbreaks_idem (context : Context) (events : List Event) :
    softbreaks_to_hardbreaks (softbreaks_to_hardbreaks context events).1
        (softbreaks_to_hardbreaks context events).2.1 =
      softbreaks_to_hardbreaks context events ∧
    Event.SoftBreak ∉ (softbreaks_to_hardbreaks context events).2.1 := by
  constructor
  · unfold softbreaks_to_hardbreaks
    simp [softbreaksLoop_idem]
  · exact softbreaksLoop_no_softbreak events

/-- C3: `only_published_filter` returns `Continue` exactly when the
frontmatter maps the key `publish` to the boolean `true`; in every other
case (key absent, non-boolean value, or `false`) it returns
`StopAndSkipNote`. -/
theorem only_published_filter_spec (context : Context) (events : List Event) :
    (only_published_filter context events).2.2 =
      (if fmGet context.frontmatter (Value.str "publish") = some (Value.bool true)
       then PostprocessorResult.Continue
       else PostprocessorResult.StopAndSkipNote) := by
  rcases h : fmGet context.frontmatter (Value.str "publish") with _ | v
  · simp [only_published_filter, h]
  · rcases v with _ | b | n | s | xs
    · simp [only_published_filter, h]
    · cases b <;> simp [only_published_filter, h]
    · simp [only_published_filter, h]
    · simp [only_published_filter, h]
    · simp [only_published_filter, h]

/-- C2: if some tag of the note appears in the skip-list, `filter_by_tags_`
returns `StopAndSkipNote`, whatever the include-list contains — exclusion
wins over inclusion on conflict. -/
theorem filter_by_tags_skip_wins (tags : List Value) (skip_tags only_tags : List String)
    (t : String) (hskip : t ∈ skip_tags) (htag : Value.str t ∈ tags) :
    filter_by_tags_ tags skip_tags only_tags = PostprocessorResult.StopAndSkipNote := by
  have h : skip_tags.any (fun tag => tags.contains (Value.str tag)) = true := by
    rw [List.any_eq_true]
    exact ⟨t, hskip, List.elem_iff.mpr htag⟩
  simp only [filter_by_tags_]
  rw [h]
  rfl

theorem filter_by_tags_skip_wins_witness :
    ("skip" ∈ ["skip"] ∧ Value.str "skip" ∈ [Value.str "skip", Value.str "publish"]) ∧
      filter_by_tags_ [Value.str "skip", Value.str "publish"] ["skip"] ["skip"] =
        PostprocessorResult.StopAndSkipNote :=
  ⟨⟨by simp, by simp⟩,
   filter_by_tags_skip_wins [Value.str "skip", Value.str "publish"] ["skip"] ["skip"]
     "skip" (by simp) (by simp)⟩

/-- C8: on a note whose frontmatter has no `tags` key, the postprocessor
produced by `filter_by_tags` returns `Continue` when the include-list is
empty and `StopAndSkipNote` when it is non-empty, for every skip-list. -/
theorem filter_by_tags_absent_tags (skip_tags only_tags : List String)
    (context : Context) (events : List Event)
    (h : fmGet context.frontmatter (Value.str "tags") = none) :
    (filter_by_tags skip_tags only_tags context events).2.2 =
      (if only_tags.isEmpty then PostprocessorResult.Continue
       else PostprocessorResult.StopAndSkipNote) := by
  have hskip : skip_tags.any (fun tag => ([] : List Value).contains (Value.str tag)) = false := by
    simp
  cases honly : only_tags.isEmpty <;>
    simp [filter_by_tags, h, filter_by_tags_, hskip, honly]

theorem filter_by_tags_absent_tags_witness :
    fmGet (Context.mk "a.md" "a.md" []).frontmatter (Value.str "tags") = none ∧
      (filter_by_tags ["x"] ["y"] (Context.mk "a.md" "a.md" []) []).2.2 =
        (if (["y"] : List String).isEmpty then PostprocessorResult.Continue
         else PostprocessorResult.StopAndSkipNote) :=
  ⟨rfl, filter_by_tags_absent_tags ["x"] ["y"] (Context.mk "a.md" "a.md" []) [] rfl⟩

/-- C9: on a note whose frontmatter has a `tags` key bound to a value that
is not a sequence, the postprocessor produced by `filter_by_tags` returns
`Continue` regardless of the skip-list and include-list. -/
theorem filter_by_tags_non_sequence (skip_tags only_tags : List String)
    (context : Context) (events : List Event) (v : Value)
    (hv : fmGet context.frontmatter (Value.str "tags") = some v)
    (hns : v.isSequence = false) :
    (filter_by_tags skip_tags only_tags context events).2.2 =
      PostprocessorResult.Continue := by
  rcases v with _ | b | n | s | xs
  · simp [filter_by_tags, hv]
  · simp [filter_by_tags, hv]
  · simp [filter_by_tags, hv]
  · simp [filter_by_tags, hv]
  · simp [Value.isSequence] at hns

theorem filter_by_tags_non_sequence_witness :
    fmGet (Context.mk "a.md" "a.md" [(Value.str "tags", Value.str "solo")]).frontmatter
        (Value.str "tags") = some (Value.str "solo") ∧
      (Value.str "solo").isSequence = false ∧
      (filter_by_tags ["solo"] ["solo"]
          (Context.mk "a.md" "a.md" [(Value.str "tags", Value.str "solo")]) []).2.2 =
        PostprocessorResult.Continue :=
  ⟨rfl, rfl,
   filter_by_tags_non_sequence ["solo"] ["solo"]
     (Context.mk "a.md" "a.md" [(Value.str "tags", Value.str "solo")]) []
     (Value.str "solo") rfl rfl⟩

/-! ## Frontmatter strategy -/

/-- C5: with strategy `Always`, a note whose source has no frontmatter
block is emitted as an empty delimited frontmatter block followed by the
original body unchanged. -/
theorem frontmatter_always_empty_block (body : String) :
    applyFrontmatterStrategy FrontmatterStrategy.Always none body =
      "---\n---\n\n" ++ body := rfl

/-- C6: with strategy `Never`, a note whose source has a frontmatter block
is emitted as exactly the body text with the block stripped, whatever the
block contained. -/
theorem frontmatter_never_strips (fmText body : String) :
    applyFrontmatterStrategy FrontmatterStrategy.Never (some fmText) body = body := rfl

/-! ## Context isolation across the embed boundary -/

theorem find?_key_map_set (l : List (Nat × Context)) (i j : Nat) (c : Context)
    (hij : j ≠ i) :
    List.find? (fun p => p.1 == j) (l.map (fun p => if p.1 == i then (i, c) else p)) =
      List.find? (fun p => p.1 == j) l := by
  induction l with
  | nil => rfl
  | cons a as ih =>
      simp only [List.map_cons, List.find?_cons]
      by_cases hai : a.1 = i
      · have hhead : (if (a.1 == i) then ((i, c) : Nat × Context) else a) = (i, c) := by
          simp [hai]
        rw [hhead]
        have h4 : (((i, c) : Nat × Context).1 == j) = false :=
          beq_eq_false_iff_ne.mpr (Ne.symm hij)
        have h3 : (a.1 == j) = false := by
          rw [hai]
          exact beq_eq_false_iff_ne.mpr (Ne.symm hij)
        rw [h4, h3]
        exact ih
      · have hhead : (if (a.1 == i) then ((i, c) : Nat × Context) else a) = a := by
          simp [hai]
        rw [hhead]
        cases haj : (a.1 == j)
        · exact ih
        · rfl

/-- C4: on embed entry a fresh context object is allocated, distinct from
the parent note's context, carrying the embedded note's own frontmatter;
and any overwrite of the child object (such as a frontmatter mutation by
an embed postprocessor) leaves the context stored for the parent exactly
as it was. -/
theorem enterEmbed_fresh_context (vault : Vault) (s : ContextStore)
    (parentId : Nat) (target dest : String)
    (hwf : storeWF s) (hp : (storeGet s parentId).isSome = true) :
    (enterEmbed vault s target dest).1 ≠ parentId ∧
    storeGet (enterEmbed vault s target dest).2 (enterEmbed vault s target dest).1 =
      some { file := target, destination := dest,
             frontmatter := frontmatterOf vault target } ∧
    ∀ c' : Context,
      storeGet (storeSet (enterEmbed vault s target dest).2
          (enterEmbed vault s target dest).1 c') parentId =
        storeGet s parentId := by
  have hlt : parentId < s.nextId := by
    rcases hfind : List.find? (fun p => p.1 == parentId) s.contexts with _ | p
    · rw [storeGet, hfind] at hp
      simp at hp
    · have hmem := List.mem_of_find?_eq_some hfind
      have hpeq : p.1 = parentId := by simpa using List.find?_some hfind
      rw [← hpeq]
      exact hwf p hmem
  refine ⟨?_, ?_, ?_⟩
  · show s.nextId ≠ parentId
    omega
  · simp [enterEmbed, allocContext, storeGet]
  · intro c'
    show storeGet _ parentId = storeGet s parentId
    simp only [enterEmbed, allocContext, storeSet, storeGet, List.map_cons]
    have hhead : ((if (s.nextId, Context.mk target dest (frontmatterOf vault target)).1
        == s.nextId then (s.nextId, c')
        else (s.nextId, Context.mk target dest (frontmatterOf vault target))) :
          Nat × Context) = (s.nextId, c') := by simp
    rw [hhead, List.find?_cons_of_neg, find?_key_map_set]
    · omega
    · simp
      omega

/-! ## Embed expansion: cycle detection, error shape, depth bound -/

theorem expandEmbeds_error_rle (vault : Vault) (limit : Nat) (stack targets : List String) :
    ∀ e : ExportError,
      (expandEmbeds vault limit stack targets).1 = Except.error e →
      e = ExportError.RecursionLimitExceeded := by
  induction stack, targets using expandEmbeds.induct vault limit with
  | case1 stack =>
      intro e h
      unfold expandEmbeds at h
      simp at h
  | case2 stack t rest hmem =>
      intro e h
      unfold expandEmbeds at h
      simp [hmem] at h
      exact h.symm
  | case3 stack t rest hmem hlim =>
      intro e h
      unfold expandEmbeds at h
      simp [hmem, hlim] at h
      exact h.symm
  | case4 stack t rest hmem hlim e' d' hchild ih =>
      intro e h
      unfold expandEmbeds at h
      simp [hmem, hlim, hchild] at h
      rw [← h]
      exact ih e' (by rw [hchild])
  | case5 stack t rest hmem hlim a d' hchild ihchild ihrest =>
      intro e h
      unfold expandEmbeds at h
      simp [hmem, hlim, hchild] at h
      exact ihrest e h

theorem expandEmbeds_ok_mem (vault : Vault) (limit : Nat) (stack targets : List String) :
    (expandEmbeds vault limit stack targets).1 = Except.ok () →
    ∀ t ∈ targets, t ∉ stack ∧
      (expandEmbeds vault limit (t :: stack) (embedsOf vault t)).1 = Except.ok () := by
  induction stack, targets using expandEmbeds.induct vault limit with
  | case1 stack =>
      intro _ t ht
      simp at ht
  | case2 stack t rest hmem =>
      intro h
      unfold expandEmbeds at h
      simp [hmem] at h
  | case3 stack t rest hmem hlim =>
      intro h
      unfold expandEmbeds at h
      simp [hmem, hlim] at h
  | case4 stack t rest hmem hlim e' d' hchild ih =>
      intro h
      unfold expandEmbeds at h
      simp [hmem, hlim, hchild] at h
  | case5 stack t rest hmem hlim a d' hchild ihchild ihrest =>
      intro h
      unfold expandEmbeds at h
      simp [hmem, hlim, hchild] at h
      intro u hu
      rcases List.mem_cons.mp hu with hu1 | hu2
      · subst hu1
        exact ⟨hmem, by rw [hchild]⟩
      · exact ihrest h u hu2

theorem expandEmbeds_depth_le (vault : Vault) (limit : Nat) (stack targets : List String) :
    stack.length ≤ limit → (expandEmbeds vault limit stack targets).2 ≤ limit := by
  induction stack, targets using expandEmbeds.induct vault limit with
  | case1 stack =>
      intro h
      unfold expandEmbeds
      simpa using h
  | case2 stack t rest hmem =>
      intro h
      unfold expandEmbeds
      simpa [hmem] using h
  | case3 stack t rest hmem hlim =>
      intro h
      unfold expandEmbeds
      simpa [hmem, hlim] using h
  | case4 stack t rest hmem hlim e' d' hchild ih =>
      intro h
      unfold expandEmbeds
      simp [hmem, hlim, hchild]
      have hstep : (t :: stack).length ≤ limit := by
        simp only [List.length_cons]
        omega
      have := ih hstep
      rw [hchild] at this
      exact this
  | case5 stack t rest hmem hlim a d' hchild ihchild ihrest =>
      intro h
      unfold expandEmbeds
      simp [hmem, hlim, hchild]
      have hstep : (t :: stack).length ≤ limit := by
        simp only [List.length_cons]
        omega
      have hchildle := ihchild hstep
      rw [hchild] at hchildle
      exact ⟨hchildle, ihrest h⟩

theorem exportFile_cycle_error (vault : Vault) (limit : Nat) (noteA noteB : String)
    (hAB : noteB ∈ embedsOf vault noteA) (hBA : noteA ∈ embedsOf vault noteB) :
    (exportFile vault limit noteA).1 =
      Except.error (ExportError.FileExportError noteA ExportError.RecursionLimitExceeded) := by
  have hnotok : (expandEmbeds vault limit [noteA] (embedsOf vault noteA)).1 ≠ Except.ok () := by
    intro hok
    obtain ⟨hBnin, hok2⟩ := expandEmbeds_ok_mem vault limit [noteA] _ hok noteB hAB
    obtain ⟨hAnin, _⟩ := expandEmbeds_ok_mem vault limit (noteB :: [noteA]) _ hok2 noteA hBA
    exact hAnin (by simp)
  rcases hE : expandEmbeds vault limit [noteA] (embedsOf vault noteA) with ⟨r, d⟩
  rcases r with e | u
  · have he : e = ExportError.RecursionLimitExceeded :=
      expandEmbeds_error_rle vault limit [noteA] _ e (by rw [hE])
    subst he
    unfold exportFile
    rw [hE]
  · cases u
    exact absurd (by rw [hE]) hnotok

theorem exportFile_depth_le (vault : Vault) (limit : Nat) (path : String)
    (h : 1 ≤ limit) : (exportFile vault limit path).2 ≤ limit := by
  have hd := expandEmbeds_depth_le vault limit [path] (embedsOf vault path) (by simpa)
  unfold exportFile
  rcases hE : expandEmbeds vault limit [path] (embedsOf vault path) with ⟨r, d⟩
  rw [hE] at hd
  rcases r with e | u
  · exact hd
  · exact hd

/-- C1: in every vault in which two notes embed each other, exporting
either of them fails with a `FileExportError` naming that note whose
source is `RecursionLimitExceeded` — and the expansion never pushes the
recursion stack past the configured depth ceiling. (The export cannot
hang: `expandEmbeds` is a total function.) -/
theorem exportFile_mutual_embed_fails (vault : Vault) (limit : Nat)
    (noteA noteB : String)
    (hAB : noteB ∈ embedsOf vault noteA) (hBA : noteA ∈ embedsOf vault noteB)
    (hlim : 1 ≤ limit) :
    ((exportFile vault limit noteA).1 =
        Except.error (ExportError.FileExportError noteA
          ExportError.RecursionLimitExceeded) ∧
      (exportFile vault limit noteA).2 ≤ limit) ∧
    ((exportFile vault limit noteB).1 =
        Except.error (ExportError.FileExportError noteB
          ExportError.RecursionLimitExceeded) ∧
      (exportFile vault limit noteB).2 ≤ limit) :=
  ⟨⟨exportFile_cycle_error vault limit noteA noteB hAB hBA,
    exportFile_depth_le vault limit noteA hlim⟩,
   ⟨exportFile_cycle_error vault limit noteB noteA hBA hAB,
    exportFile_depth_le vault limit noteB hlim⟩⟩

/-- The two-note cyclic vault of `tests/testdata/input/infinite-recursion`:
`Note A.md` embeds `Note B.md` and vice versa. -/
def cyclicVault : Vault :=
  [("Note A.md", NoteData.mk [] ["Note B.md"]),
   ("Note B.md", NoteData.mk [] ["Note A.md"])]

theorem exportFile_mutual_embed_fails_witness :
    ("Note B.md" ∈ embedsOf cyclicVault "Note A.md" ∧
     "Note A.md" ∈ embedsOf cyclicVault "Note B.md" ∧ 1 ≤ 10) ∧
    (((exportFile cyclicVault 10 "Note A.md").1 =
        Except.error (ExportError.FileExportError "Note A.md"
          ExportError.RecursionLimitExceeded) ∧
      (exportFile cyclicVault 10 "Note A.md").2 ≤ 10) ∧
     ((exportFile cyclicVault 10 "Note B.md").1 =
        Except.error (ExportError.FileExportError "Note B.md"
          ExportError.RecursionLimitExceeded) ∧
      (exportFile cyclicVault 10 "Note B.md").2 ≤ 10)) :=
  ⟨⟨by decide, by decide, by decide⟩,
   exportFile_mutual_embed_fails cyclicVault 10 "Note A.md" "Note B.md"
     (by decide) (by decide) (by decide)⟩

/-- Store holding a single root-note context, as at the moment the root
note of `tests/testdata/input/postprocessors` reaches its first embed. -/
def sampleStore : ContextStore :=
  ContextStore.mk
    [(0, Context.mk "Note.md" "Note.md" [(Value.str "is_root_note", Value.bool true)])] 1

/-- One-note vault providing the embedded note's own frontmatter. -/
def sampleVault : Vault :=
  [("Embedded.md", NoteData.mk [(Value.str "is_root_note", Value.bool false)] [])]

theorem enterEmbed_fresh_context_witness :
    (storeWF sampleStore ∧ (storeGet sampleStore 0).isSome = true) ∧
    ((enterEmbed sampleVault sampleStore "Embedded.md" "Embedded.md").1 ≠ 0 ∧
     storeGet (enterEmbed sampleVault sampleStore "Embedded.md" "Embedded.md").2
         (enterEmbed sampleVault sampleStore "Embedded.md" "Embedded.md").1 =
       some { file := "Embedded.md", destination := "Embedded.md",
              frontmatter := frontmatterOf sampleVault "Embedded.md" } ∧
     ∀ c' : Context,
       storeGet (storeSet (enterEmbed sampleVault sampleStore "Embedded.md" "Embedded.md").2
           (enterEmbed sampleVault sampleStore "Embedded.md" "Embedded.md").1 c') 0 =
         storeGet sampleStore 0) :=
  ⟨⟨by intro p hp; simp [sampleStore] at hp; subst hp; decide, by decide⟩,
   enterEmbed_fresh_context sampleVault sampleStore 0 "Embedded.md" "Embedded.md"
     (by intro p hp; simp [sampleStore] at hp; subst hp; decide) (by decide)⟩
